import Mathlib

/-!
Verification of the afrobeats MIDI generator (`src/HomePage/Home.js`).

The source is a single React component.  Its core logic — diatonic chord
derivation, progression-template selection, chord inversion, pentatonic
melody generation and MIDI event assembly — is embedded below as
executable Lean definitions.  JavaScript strings are modelled as Lean
`String`s, operating on their underlying character lists (JS string ops
on this data are ASCII-safe).  `Math.random()` draws are modelled by
explicit parameters holding the already-floored integer outcomes
(`Math.floor(Math.random() * n)` becomes a `Nat` parameter constrained
to `< n` in the theorems).  The external `tonal` and `midi-writer-js`
libraries are not part of the repository; the few library behaviours the
program depends on are modelled from the spec and marked as such.
-/

/-! ## Pitch classes (modelled tonal note machinery) -/

/-- Modelled from the spec: a pitch class is a letter name (A–G, stored as an
index into C,D,E,F,G,A,B) with an accidental alteration (positive = sharps,
negative = flats). -/
structure PC where
  letter : Fin 7
  alt : Int
deriving DecidableEq, Repr

/-- Semitone of each natural letter, in C,D,E,F,G,A,B order. -/
def letterSemis (l : Fin 7) : Nat := [0, 2, 4, 5, 7, 9, 11].getD l.val 0

/-- Character of each letter, in C,D,E,F,G,A,B order. -/
def letterChar (l : Fin 7) : Char := ['C', 'D', 'E', 'F', 'G', 'A', 'B'].getD l.val 'C'

/-- Letter index of a (possibly lowercase) letter character. -/
def letterIdx (c : Char) : Option (Fin 7) :=
  if c = 'C' ∨ c = 'c' then some 0
  else if c = 'D' ∨ c = 'd' then some 1
  else if c = 'E' ∨ c = 'e' then some 2
  else if c = 'F' ∨ c = 'f' then some 3
  else if c = 'G' ∨ c = 'g' then some 4
  else if c = 'A' ∨ c = 'a' then some 5
  else if c = 'B' ∨ c = 'b' then some 6
  else none

/-- Accidental string of an alteration: sharps for positive, flats for negative. -/
def accStr (alt : Int) : String :=
  if 0 ≤ alt then ⟨List.replicate alt.toNat '#'⟩ else ⟨List.replicate (-alt).toNat 'b'⟩

/-- Canonical name of a pitch class, e.g. `F#`, `Bb`. -/
def pcName (pc : PC) : String := ⟨letterChar pc.letter :: (accStr pc.alt).data⟩

/-- Modelled from the spec: parsing of a pitch-class spelling
(letter, upper or lower case, followed by sharps or flats), as tonal's
note tokenizer does for octave-less note names. -/
def parsePitchClass (s : String) : Option PC :=
  match s.data with
  | [] => none
  | c :: rest =>
    match letterIdx c with
    | none => none
    | some l =>
      if rest = [] then some ⟨l, 0⟩
      else if rest.all (· = '#') then some ⟨l, (rest.length : Int)⟩
      else if rest.all (· = 'b') then some ⟨l, -(rest.length : Int)⟩
      else none

/-- A root spelling is valid when it parses as a pitch class. -/
def validRoot (s : String) : Prop := (parsePitchClass s).isSome

instance (s : String) : Decidable (validRoot s) := by
  unfold validRoot; infer_instance

/-- Transpose a pitch class up by `lo` letter steps and `ss` semitones,
keeping the spelling implied by the letter step (standard diatonic
construction). -/
def transpose (pc : PC) (lo ss : Nat) : PC :=
  let l2 : Fin 7 := ⟨(pc.letter.val + lo) % 7, Nat.mod_lt _ (by omega)⟩
  let natShift : Int := ((letterSemis l2 : Int) - (letterSemis pc.letter : Int)).emod 12
  ⟨l2, pc.alt + (ss : Int) - natShift⟩

/-- Modelled from the spec: the interval structure (letter offset, semitone
offset per degree) of the four scale types the program requests from
tonal's `Scale.get`; other scale names are outside the program's scope. -/
def scaleData (stype : String) : Option (List (Nat × Nat)) :=
  if stype = "major" then some [(0, 0), (1, 2), (2, 4), (3, 5), (4, 7), (5, 9), (6, 11)]
  else if stype = "minor" then some [(0, 0), (1, 2), (2, 3), (3, 5), (4, 7), (5, 8), (6, 10)]
  else if stype = "major pentatonic" then some [(0, 0), (1, 2), (2, 4), (4, 7), (5, 9)]
  else if stype = "minor pentatonic" then some [(0, 0), (2, 3), (3, 5), (4, 7), (6, 10)]
  else none

/-- Modelled from the spec: tonal's `` Scale.get(`${root} ${type}`).notes `` —
the ordered scale tones for the given root and scale type, empty when the
root is malformed (the source interpolates the two arguments into one
string; they are kept separate here). -/
def scaleGetNotes (root stype : String) : List String :=
  match parsePitchClass root, scaleData stype with
  | some pc, some steps => steps.map (fun p => pcName (transpose pc p.1 p.2))
  | _, _ => []

/-- Modelled from the spec: tonal's `Chord.getChord(quality, tonic).symbol` —
the chord symbol is the quality applied to the tonic's name
("Build the chord symbol as quality applied to that degree's root tone"). -/
def chordGetChordSymbol (quality tonic : String) : String := tonic ++ quality

/-- Modelled from the spec: the triad interval structure (letter offset,
semitone offset above the root) of the three qualities the program uses. -/
def triadIntervals (q : String) : Option (List (Nat × Nat)) :=
  if q = "maj" then some [(2, 4), (4, 7)]
  else if q = "min" then some [(2, 3), (4, 7)]
  else if q = "dim" then some [(2, 3), (4, 6)]
  else none

/-- Modelled from the spec: tonal's `Chord.get(symbol).notes` — "resolve
chord symbol to its note set" as octave-less pitch classes; the symbol is
split into root spelling and a 3-letter quality suffix. -/
def chordGetNotes (symbol : String) : List String :=
  let q : String := ⟨(symbol.data.reverse.take 3).reverse⟩
  let rootStr : String := ⟨symbol.data.dropLast.dropLast.dropLast⟩
  match parsePitchClass rootStr, triadIntervals q with
  | some pc, some ivs => pcName pc :: ivs.map (fun p => pcName (transpose pc p.1 p.2))
  | _, _ => []

/-- Modelled from the spec: tonal's `Note.simplify` — "Root is simplified to
a canonical pitch-class spelling; enharmonic simplification is performed
once at input parsing"; invalid spellings yield the empty string, spellings
with more than one accidental are replaced by a canonical enharmonic. -/
def noteSimplify (s : String) : String :=
  match parsePitchClass s with
  | none => ""
  | some pc =>
    if -1 ≤ pc.alt ∧ pc.alt ≤ 1 then pcName pc
    else
      (["C", "C#", "D", "D#", "E", "F"] ++ ["F#", "G", "G#", "A", "A#", "B"]).getD
        (((letterSemis pc.letter : Int) + pc.alt).emod 12).toNat ""

/-! ## JS string helpers (ASCII, on the character data) -/

/-- JS `String.prototype.trim`. -/
def jsTrim (s : String) : String :=
  ⟨((s.data.dropWhile Char.isWhitespace).reverse.dropWhile Char.isWhitespace).reverse⟩

/-- Splits a character list at every space, as JS `split(" ")` does. -/
def splitSpaceAux : List Char → List Char → List (List Char)
  | [], acc => [acc.reverse]
  | c :: cs, acc =>
    if c = ' ' then acc.reverse :: splitSpaceAux cs [] else splitSpaceAux cs (c :: acc)

/-- JS `String.prototype.split(" ")`. -/
def jsSplitOnSpace (s : String) : List String :=
  (splitSpaceAux s.data []).map (fun l => ⟨l⟩)

/-- JS `String.prototype.toLowerCase` (ASCII). -/
def jsToLower (s : String) : String := ⟨s.data.map Char.toLower⟩

/-- JS `Array.prototype.join`. -/
def jsJoin (sep : String) : List String → String
  | [] => ""
  | [x] => x
  | x :: xs => x ++ sep ++ jsJoin sep xs

/-! ## The source functions -/

/-- `getDiatonicChords(scaleRoot, scaleType)` from `Home.js`: the scale's
notes each paired with the per-type triad quality, rendered as chord
symbols; empty when the scale lookup yields no notes. -/
def getDiatonicChords (scaleRoot scaleType : String) : List String :=
  let notes := scaleGetNotes scaleRoot scaleType
  if notes.isEmpty then []
  else
    let triads : List String :=
      if scaleType = "major" then ["maj", "min", "min", "maj", "maj", "min", "dim"]
      else ["min", "dim", "maj", "min", "min", "maj", "maj"]
    notes.enum.map (fun p => chordGetChordSymbol (triads.getD p.1 "") p.2)

/-- The fixed catalog of progression templates from
`generateAfrobeatsProgression`. -/
def afrobeatsProgressions : List (List Nat) :=
  [[1, 5, 6, 4], [6, 4, 1, 5], [2, 5, 1, 1], [1, 4, 5, 4],
   [4, 1, 5, 6], [6, 5, 4, 5], [1, 6, 4, 5]]

/-- `generateAfrobeatsProgression(chords)` from `Home.js`.  The template
index `r` stands for `Math.floor(Math.random() * afrobeatsProgressions.length)`
(an integer in `[0, 7)`). -/
def generateAfrobeatsProgression (chords : List String) (r : Nat) : List String :=
  let template := afrobeatsProgressions.getD r []
  template.map (fun degree => chords.getD (degree - 1) "")

/-- The loop body of `invertChord`: `noteName = note.slice(0, -1)`,
`octave = parseInt(note.slice(-1), 10)`, push `noteName + (octave + 1)`.
A non-digit (or absent) last character makes `parseInt` return `NaN` and
JS string concatenation then appends `"NaN"`. -/
def raiseNote (note : String) : String :=
  match note.data.getLast? with
  | some c =>
    if c.isDigit then ⟨note.data.dropLast⟩ ++ toString (c.toNat - 48 + 1)
    else ⟨note.data.dropLast⟩ ++ "NaN"
  | none => "" ++ "NaN"

/-- `invertChord(notes, inversion)` from `Home.js`: `inversion` times, shift
the first note off the front and push it back raised by an octave.  (JS
faults on `shift` from an empty array; that case, never reached by the
program, is rendered as the empty list.) -/
def invertChord (notes : List String) (inversion : Nat := 0) : List String :=
  match inversion, notes with
  | 0, l => l
  | _ + 1, [] => []
  | k + 1, n :: rest => invertChord (rest ++ [raiseNote n]) k

/-- The pentatonic scale the melody generator draws from:
`scaleType === 'major' ? 'major pentatonic' : 'minor pentatonic'`. -/
def pentatonicNotes (scaleRoot scaleType : String) : List String :=
  scaleGetNotes scaleRoot (if scaleType = "major" then "major pentatonic" else "minor pentatonic")

/-- The floored random draws consumed by one melody slot:
`emit` is `Math.random() < 0.6`, `noteIdx` is
`Math.floor(Math.random() * notes.length)`, `octRaw` is
`Math.floor(Math.random() * 2)`, `jitRaw` is the `Math.floor(Math.random() * 10)`
part of the jitter, `velRaw` is `Math.floor(Math.random() * 30)`. -/
structure SlotRand where
  emit : Bool
  noteIdx : Nat
  octRaw : Nat
  jitRaw : Nat
  velRaw : Nat

/-- The ranges the floored `Math.random` draws of one melody slot actually
take, given a pentatonic set of `n` notes. -/
def slotValid (n : Nat) (s : SlotRand) : Prop :=
  s.noteIdx < n ∧ s.octRaw < 2 ∧ s.jitRaw < 10 ∧ s.velRaw < 30

instance (n : Nat) (s : SlotRand) : Decidable (slotValid n s) := by
  unfold slotValid; infer_instance

/-- A melody event pushed by `generateAfrobeatMelody`. -/
structure MelodyNote where
  pitch : String
  startTick : Int
  duration : String
  velocity : Nat
deriving DecidableEq, Repr

/-- `generateAfrobeatMelody(scaleRoot, scaleType, numberOfBars = 4)` from
`Home.js`; `r bar beat` supplies the slot's random draws.  Per bar there
are `beats * 2 = 8` slots; a slot emits a note exactly when its
`Math.random() < 0.6` draw succeeded, with pitch `` `${note}${octave}` ``,
`startTick = bar * 512 + beat * 32 + (jitter)` where the jitter is
`Math.floor(Math.random() * 10 - 5)`, duration `"8"` and velocity
`Math.floor(Math.random() * 30) + 90`. -/
def generateAfrobeatMelody (scaleRoot scaleType : String) (numberOfBars : Nat)
    (r : Nat → Nat → SlotRand) : List MelodyNote :=
  let notes := pentatonicNotes scaleRoot scaleType
  if notes.isEmpty then []
  else
    ((List.range numberOfBars).map (fun bar =>
      (List.range 8).filterMap (fun beat =>
        let s := r bar beat
        if s.emit then
          some { pitch := notes.getD s.noteIdx "" ++ toString (5 + s.octRaw)
                 startTick := (bar : Int) * 512 + (beat : Int) * 32 + ((s.jitRaw : Int) - 5)
                 duration := "8"
                 velocity := s.velRaw + 90 }
        else none))).flatten

/-! ## MIDI event assembly (`handleGenerateMidi`) -/

/-- The floored random draws consumed per chord of the progression:
`invRaw` is `Math.floor(Math.random() * 3)`, `velRaw` is
`Math.floor(Math.random() * 30)`, `offRaw` is the
`Math.floor(Math.random() * 20)` part of the timing offset. -/
structure ChordRand where
  invRaw : Nat
  velRaw : Nat
  offRaw : Nat

/-- The ranges the floored `Math.random` draws of one chord actually take. -/
def chordRandValid (c : ChordRand) : Prop :=
  c.invRaw < 3 ∧ c.velRaw < 30 ∧ c.offRaw < 20

instance (c : ChordRand) : Decidable (chordRandValid c) := by
  unfold chordRandValid; infer_instance

/-- All random draws of one generation pass: the progression-template index,
the per-chord draws (indexed by chord position) and the per-slot melody
draws (indexed by bar and slot). -/
structure GenRand where
  tmpl : Nat
  chord : Nat → ChordRand
  slot : Nat → Nat → SlotRand

/-- An event added to the `midi-writer-js` track (the serializer is an
external collaborator; the track is its input event list). -/
inductive MidiEvent where
  | programChange (instrument : Nat)
  | note (pitch : List String) (duration : String) (startTick : Int) (velocity : Nat)
deriving DecidableEq, Repr

/-- Everything a successful generation pass produces: the progression put
into the display state, the assembled track events, and the download
filename. -/
structure GenOut where
  progression : List String
  events : List MidiEvent
  filename : String
deriving DecidableEq, Repr

/-- `.replace(/[#]/g, "sharp")` from the filename expression. -/
def replaceSharp (s : String) : String :=
  ⟨s.data.flatMap (fun c => if c = '#' then "sharp".data else [c])⟩

/-- The filesystem-unsafe characters stripped from the filename. -/
def unsafeChar (c : Char) : Bool :=
  c = '/' ∨ c = '\\' ∨ c = ':' ∨ c = '*' ∨ c = '?' ∨ c = '"' ∨ c = '<' ∨ c = '>' ∨ c = '|'

/-- `.replace(/[\/\\:*?"<>|]/g, '')` from the filename expression. -/
def stripUnsafe (s : String) : String := ⟨s.data.filter (fun c => ¬ unsafeChar c)⟩

/-- The download filename built in `handleGenerateMidi`:
`` `${chordDegrees.join("_").replace(/[#]/g, "sharp").replace(/[\/\\:*?"<>|]/g, '')}.mid` ``. -/
def midiFilename (chordDegrees : List String) : String :=
  stripUnsafe (replaceSharp (jsJoin "_" chordDegrees)) ++ ".mid"

/-- `const [rootRaw, typeRaw] = scaleInput.trim().split(" ")` — the first
destructured token (`undefined`, which is falsy like the empty string, when
absent). -/
def inputRoot (scaleInput : String) : String :=
  (jsSplitOnSpace (jsTrim scaleInput)).getD 0 ""

/-- The second destructured token of the input. -/
def inputType (scaleInput : String) : String :=
  (jsSplitOnSpace (jsTrim scaleInput)).getD 1 ""

/-- `handleGenerateMidi` from `Home.js` as a pure function of the input text
and the random draws.  Each `alert`ed early return becomes `.error` with the
alert message (no file is produced and no state is changed there); the
successful path returns the new display progression, the assembled track
(program change, then one multi-pitch note event per chord, then the melody
events) and the download filename. -/
def handleGenerateMidi (scaleInput : String) (g : GenRand) : Except String GenOut :=
  let rootRaw := inputRoot scaleInput
  let typeRaw := inputType scaleInput
  if rootRaw = "" ∨ typeRaw = "" then
    .error "Please enter a valid scale, e.g., 'C minor'"
  else
    let root := noteSimplify rootRaw
    let type := jsToLower typeRaw
    if ¬ (type = "major" ∨ type = "minor") then
      .error "Scale type must be 'major' or 'minor'"
    else
      let chordPool := getDiatonicChords root type
      if chordPool.isEmpty then
        .error "Could not generate chords for the provided scale."
      else
        let chordDegrees := generateAfrobeatsProgression chordPool g.tmpl
        let chordEvents := chordDegrees.enum.map (fun p =>
          let notes0 := (chordGetNotes p.2).map (fun n => n ++ "4")
          let notes := invertChord notes0 (g.chord p.1).invRaw
          MidiEvent.note notes "1"
            ((p.1 : Int) * 512 + (((g.chord p.1).offRaw : Int) - 10))
            ((g.chord p.1).velRaw + 80))
        let melody := generateAfrobeatMelody root type 4 g.slot
        let events := MidiEvent.programChange 1 ::
          (chordEvents ++ melody.map (fun m =>
            MidiEvent.note [m.pitch] m.duration m.startTick m.velocity))
        .ok { progression := chordDegrees
              events := events
              filename := midiFilename chordDegrees }

/-- The progression display state after one "Generate" click, given the
previous display state: `setProgression` runs only once all validation
passed. -/
def displayedProgression (scaleInput : String) (g : GenRand) (prev : List String) :
    List String :=
  match handleGenerateMidi scaleInput g with
  | .ok out => out.progression
  | .error _ => prev

/-! ## Observers used to state the claims -/

/-- The last three characters of a chord symbol — its quality suffix. -/
def symbolQuality (s : String) : String := ⟨(s.data.reverse.take 3).reverse⟩

/-- The trailing decimal digits of a note string (its octave spelling). -/
def trailingDigits (s : String) : List Char :=
  (s.data.reverse.takeWhile Char.isDigit).reverse

/-- A note string without its trailing digits — its pitch-class spelling. -/
def notePitchClass (s : String) : String :=
  ⟨(s.data.reverse.dropWhile Char.isDigit).reverse⟩

/-- The numeric value of a list of decimal digit characters. -/
def digitsVal (l : List Char) : Nat :=
  l.foldl (fun a c => a * 10 + (c.toNat - 48)) 0

/-- The octave a note string denotes: the value of its trailing digits. -/
def noteOctave (s : String) : Nat := digitsVal (trailingDigits s)

/-- Whether a string does not end in a decimal digit. -/
def noTrailingDigit (s : String) : Bool :=
  match s.data.getLast? with
  | some c => !c.isDigit
  | none => true

/-- A note string in the program's note format: a pitch-class spelling
(ending in a non-digit) followed by a single-digit octave. -/
def wfNote (s : String) : Prop :=
  ∃ nm : String, ∃ d : Nat,
    d ≤ 9 ∧ noTrailingDigit nm ∧ s = nm ++ ⟨[Nat.digitChar d]⟩

/-! ## Concrete random streams for the witnesses -/

/-- A slot draw that never emits a note. -/
def silentSlot : SlotRand := ⟨false, 0, 0, 0, 0⟩

/-- A slot draw that always emits, always picking the first pentatonic note,
octave draw 0, jitter draw 0 (jitter −5) and velocity draw 0. -/
def loudSlot : SlotRand := ⟨true, 0, 0, 0, 0⟩

/-- A concrete all-zero random source (template 0, no melody notes). -/
def genRand0 : GenRand := ⟨0, fun _ => ⟨0, 0, 0⟩, fun _ _ => silentSlot⟩

/-- The output of the concrete run `handleGenerateMidi "C major" genRand0`. -/
def out0 : GenOut :=
  match handleGenerateMidi "C major" genRand0 with
  | .ok o => o
  | .error _ => ⟨[], [], ""⟩

/-- A melody random stream that emits on every slot with jitter draw 0. -/
def r8 : Nat → Nat → SlotRand := fun _ _ => loudSlot

/-! ## Helper lemmas -/

/-- An in-bounds `getD` is a member of the list. -/
theorem mem_getD {α : Type} (l : List α) (n : Nat) (d : α) (h : n < l.length) :
    l.getD n d ∈ l := by
  rw [List.getD_eq_getElem l d h]
  exact List.getElem_mem h

/-- Rebuilding a string from its character data is the identity. -/
theorem mk_data (s : String) : (⟨s.data⟩ : String) = s := rfl

/-- Every template of the catalog has length 4. -/
theorem template_length : ∀ r < 7, (afrobeatsProgressions.getD r []).length = 4 := by decide

/-- Every degree of every template lies in `[1, 6]`. -/
theorem template_degrees : ∀ r < 7, ∀ d ∈ afrobeatsProgressions.getD r [], 1 ≤ d ∧ d ≤ 6 := by
  decide

/-- The selected progression always has 4 entries. -/
theorem generateAfrobeatsProgression_length (chords : List String) (r : Nat) (hr : r < 7) :
    (generateAfrobeatsProgression chords r).length = 4 := by
  simp only [generateAfrobeatsProgression, List.length_map]
  exact template_length r hr

/-! ## Claim theorems -/

/-- C7: `invertChord(notes, 0)` returns a sequence equal to `notes` — the
identity transformation.  The embedding is pure, so the input list is a
value that cannot be mutated; the loop simply never runs. -/
theorem invertChord_zero_id (notes : List String) : invertChord notes 0 = notes := rfl

/-- C2: for every pool of length 7 and every template draw `r < 7`,
`generateAfrobeatsProgression` picks one of the 7 catalog templates,
returns exactly 4 symbols obtained by mapping each degree `d` to
`chordPool[d - 1]`, and every returned symbol is a member of the pool. -/
theorem generateAfrobeatsProgression_spec (chords : List String) (r : Nat)
    (h7 : chords.length = 7) (hr : r < 7) :
    afrobeatsProgressions.length = 7 ∧
    (generateAfrobeatsProgression chords r).length = 4 ∧
    (∃ t ∈ afrobeatsProgressions,
      generateAfrobeatsProgression chords r = t.map (fun d => chords.getD (d - 1) "")) ∧
    ∀ s ∈ generateAfrobeatsProgression chords r, s ∈ chords := by
  refine ⟨rfl, generateAfrobeatsProgression_length chords r hr, ?_, ?_⟩
  · exact ⟨afrobeatsProgressions.getD r [],
      mem_getD _ _ _ (by simpa [afrobeatsProgressions] using hr), rfl⟩
  · intro s hs
    simp only [generateAfrobeatsProgression, List.mem_map] at hs
    obtain ⟨d, hd, rfl⟩ := hs
    have hd6 := template_degrees r hr d hd
    exact mem_getD _ _ _ (by omega)

/-- Witness for C2 at the C-major pool and template draw 0. -/
theorem generateAfrobeatsProgression_spec_witness :
    afrobeatsProgressions.length = 7 ∧
    (generateAfrobeatsProgression ["Cmaj", "Dmin", "Emin", "Fmaj", "Gmaj", "Amin", "Bdim"] 0).length = 4 ∧
    (∃ t ∈ afrobeatsProgressions,
      generateAfrobeatsProgression ["Cmaj", "Dmin", "Emin", "Fmaj", "Gmaj", "Amin", "Bdim"] 0 =
        t.map (fun d => (["Cmaj", "Dmin", "Emin", "Fmaj", "Gmaj", "Amin", "Bdim"] : List String).getD (d - 1) "")) ∧
    ∀ s ∈ generateAfrobeatsProgression ["Cmaj", "Dmin", "Emin", "Fmaj", "Gmaj", "Amin", "Bdim"] 0,
      s ∈ (["Cmaj", "Dmin", "Emin", "Fmaj", "Gmaj", "Amin", "Bdim"] : List String) :=
  generateAfrobeatsProgression_spec _ 0 (by decide) (by decide)

/-! ## Rotation structure of `invertChord` -/

/-- `invertChord` rotates: the first `k` notes move to the back, raised. -/
theorem invertChord_rot : ∀ (k : Nat) (l : List String), k ≤ l.length →
    invertChord l k = l.drop k ++ (l.take k).map raiseNote := by
  intro k
  induction k with
  | zero => intro l _; simp [invertChord]
  | succ k ih =>
    intro l hl
    match l with
    | [] => simp at hl
    | n :: rest =>
      have hk : k ≤ rest.length := by simpa using hl
      have h2 : k ≤ (rest ++ [raiseNote n]).length := by simp; omega
      show invertChord (rest ++ [raiseNote n]) k = _
      rw [ih _ h2, List.drop_append_of_le_length hk, List.take_append_of_le_length hk]
      simp [List.map_append]

/-- A full cycle of inversions raises every note once, keeping the order. -/
theorem invertChord_full (l : List String) : invertChord l l.length = l.map raiseNote := by
  rw [invertChord_rot _ _ le_rfl]
  simp

/-- `k` inversions followed by `length - k` inversions amount to one full
cycle: every note raised exactly once, in the original order. -/
theorem invertChord_comp (l : List String) (k : Nat) (hk : k ≤ l.length) :
    invertChord (invertChord l k) (l.length - k) = l.map raiseNote := by
  rw [invertChord_rot k l hk]
  have h1 : (l.drop k).length = l.length - k := List.length_drop k l
  rw [invertChord_rot (l.length - k) _ (by simp), ← h1,
    List.drop_left, List.take_left, ← List.map_append, List.take_append_drop]

/-! ## Digit and octave lemmas -/

/-- `takeWhile` passes over a prefix whose elements all satisfy `p`. -/
theorem takeWhile_append_all {α : Type} (p : α → Bool) :
    ∀ (l₁ l₂ : List α), (∀ x ∈ l₁, p x) → List.takeWhile p (l₁ ++ l₂) = l₁ ++ List.takeWhile p l₂
  | [], l₂, _ => rfl
  | a :: t, l₂, h => by
    have ha : p a = true := h a (by simp)
    simp only [List.cons_append, List.takeWhile_cons, ha, if_true]
    rw [takeWhile_append_all p t l₂ (fun x hx => h x (by simp [hx]))]

/-- `dropWhile` drops a prefix whose elements all satisfy `p`. -/
theorem dropWhile_append_all {α : Type} (p : α → Bool) :
    ∀ (l₁ l₂ : List α), (∀ x ∈ l₁, p x) →
      List.dropWhile p (l₁ ++ l₂) = List.dropWhile p l₂
  | [], l₂, _ => rfl
  | a :: t, l₂, h => by
    have ha : p a = true := h a (by simp)
    simp only [List.cons_append, List.dropWhile_cons, ha, if_true]
    exact dropWhile_append_all p t l₂ (fun x hx => h x (by simp [hx]))

/-- A string not ending in a digit has no trailing digit run. -/
theorem rev_takeWhile_nil (nm : String) (h : noTrailingDigit nm = true) :
    nm.data.reverse.takeWhile Char.isDigit = [] := by
  cases hrev : nm.data.reverse with
  | nil => rfl
  | cons c t =>
    have hlast : nm.data.getLast? = some c := by rw [← List.head?_reverse, hrev]; rfl
    unfold noTrailingDigit at h
    rw [hlast] at h
    simp only [Bool.not_eq_true'] at h
    simp [List.takeWhile_cons, h]

/-- A string not ending in a digit survives `dropWhile isDigit` from the end. -/
theorem rev_dropWhile_id (nm : String) (h : noTrailingDigit nm = true) :
    nm.data.reverse.dropWhile Char.isDigit = nm.data.reverse := by
  cases hrev : nm.data.reverse with
  | nil => rfl
  | cons c t =>
    have hlast : nm.data.getLast? = some c := by rw [← List.head?_reverse, hrev]; rfl
    unfold noTrailingDigit at h
    rw [hlast] at h
    simp only [Bool.not_eq_true'] at h
    simp [List.dropWhile_cons, h]

/-- Appending digits to a digit-free-tail string: the octave spelling is
exactly the appended digits and the pitch-class spelling is unchanged. -/
theorem trailing_append (nm : String) (ds : List Char)
    (hnd : noTrailingDigit nm = true) (hd : ∀ c ∈ ds, c.isDigit) :
    trailingDigits (nm ++ ⟨ds⟩) = ds ∧ notePitchClass (nm ++ ⟨ds⟩) = nm := by
  have hdata : (nm ++ (⟨ds⟩ : String)).data = nm.data ++ ds := String.data_append nm ⟨ds⟩
  constructor
  · unfold trailingDigits
    rw [hdata, List.reverse_append,
      takeWhile_append_all _ _ _ (fun c hc => hd c (List.mem_reverse.mp hc)),
      rev_takeWhile_nil nm hnd]
    simp
  · unfold notePitchClass
    rw [hdata, List.reverse_append,
      dropWhile_append_all _ _ _ (fun c hc => hd c (List.mem_reverse.mp hc)),
      rev_dropWhile_id nm hnd]
    simp

/-- The digit characters are digits. -/
theorem digitChar_isDigit {d : Nat} (h : d ≤ 9) : (Nat.digitChar d).isDigit = true := by
  interval_cases d <;> decide

/-- Numeric value of a digit character. -/
theorem digitChar_toNat {d : Nat} (h : d ≤ 9) : (Nat.digitChar d).toNat - 48 = d := by
  interval_cases d <;> decide

/-- The decimal rendering of a number up to 10 is all digits with the right
value. -/
theorem repr_digits {n : Nat} (h : n ≤ 10) :
    (∀ c ∈ (toString n).data, c.isDigit) ∧ digitsVal (toString n).data = n := by
  interval_cases n <;> exact ⟨by decide, by decide⟩

/-- On a note in the program's format, the loop body of `invertChord`
keeps the pitch-class spelling and raises the octave by exactly one. -/
theorem raiseNote_wf (s : String) (h : wfNote s) :
    notePitchClass (raiseNote s) = notePitchClass s ∧
    noteOctave (raiseNote s) = noteOctave s + 1 := by
  obtain ⟨nm, d, hd9, hnd, rfl⟩ := h
  have hdata : (nm ++ (⟨[Nat.digitChar d]⟩ : String)).data = nm.data ++ [Nat.digitChar d] :=
    String.data_append nm ⟨[Nat.digitChar d]⟩
  have hlast : (nm ++ (⟨[Nat.digitChar d]⟩ : String)).data.getLast? = some (Nat.digitChar d) := by
    rw [hdata]; exact List.getLast?_concat _
  have hdl : (nm ++ (⟨[Nat.digitChar d]⟩ : String)).data.dropLast = nm.data := by
    rw [hdata]; exact List.dropLast_concat
  have hr : raiseNote (nm ++ ⟨[Nat.digitChar d]⟩) = nm ++ toString (d + 1) := by
    unfold raiseNote
    rw [hlast]
    simp only [digitChar_isDigit hd9, if_true, hdl, mk_data]
    rw [digitChar_toNat hd9]
  obtain ⟨hall, hval⟩ := repr_digits (show d + 1 ≤ 10 by omega)
  have t1 := trailing_append nm (toString (d + 1)).data hnd hall
  have t0 := trailing_append nm [Nat.digitChar d] hnd
    (by intro c hc; simp only [List.mem_singleton] at hc; subst hc; exact digitChar_isDigit hd9)
  rw [mk_data] at t1
  constructor
  · rw [hr, t1.2, t0.2]
  · rw [hr]
    unfold noteOctave
    rw [t1.1, t0.1, hval]
    simp [digitsVal, digitChar_toNat hd9]

/-- Strings with equal character data are equal. -/
theorem str_ext {s t : String} (h : s.data = t.data) : s = t := by
  cases s; cases t; exact congrArg String.mk h

/-- Value of a two-digit-character list. -/
theorem digitsVal_two (c1 c2 : Char) :
    digitsVal [c1, c2] = (c1.toNat - 48) * 10 + (c2.toNat - 48) := by
  simp [digitsVal, List.foldl]

/-- Value of a three-digit-character list. -/
theorem digitsVal_three (c1 c2 c3 : Char) :
    digitsVal [c1, c2, c3] = (((c1.toNat - 48) * 10 + (c2.toNat - 48)) * 10 + (c3.toNat - 48)) := by
  simp [digitsVal, List.foldl]

/-- The decimal rendering of a single-digit number is its digit character. -/
theorem repr_single {n : Nat} (h : n ≤ 9) : (toString n).data = [Nat.digitChar n] := by
  interval_cases n <;> decide

/-- Octave and pitch class after appending one digit character. -/
theorem octave_append_digit (p : String) (hp : noTrailingDigit p = true)
    (c : Char) (hc : c.isDigit = true) :
    noteOctave (p ++ ⟨[c]⟩) = c.toNat - 48 ∧ notePitchClass (p ++ ⟨[c]⟩) = p := by
  have t := trailing_append p [c] hp
    (by intro x hx; simp only [List.mem_singleton] at hx; subst hx; exact hc)
  refine ⟨?_, t.2⟩
  unfold noteOctave
  rw [t.1]
  simp [digitsVal]

/-- Raising a note written with the single-digit octave 4 yields the same
spelling at octave 5, for any pitch-class prefix. -/
theorem raiseNote_append4 (p : String) : raiseNote (p ++ "4") = p ++ "5" := by
  have hdata : (p ++ ("4" : String)).data = p.data ++ ['4'] := String.data_append p "4"
  unfold raiseNote
  rw [show (p ++ ("4" : String)).data.getLast? = some '4' by
    rw [hdata]; exact List.getLast?_concat _]
  simp only [show ('4').isDigit = true from rfl, if_true]
  rw [show (p ++ ("4" : String)).data.dropLast = p.data by
    rw [hdata]; exact List.dropLast_concat]
  rw [mk_data]
  rfl

/-- C6: on notes in the program's format, `length notes` successive
inversions return the original notes in their original order with every
octave raised by exactly 1, and splitting the cycle as `k` inversions
followed by `length - k` inversions restores all original pitch classes
in order, for every `k ≤ length notes`. -/
theorem invertChord_cycle (notes : List String) (hne : notes ≠ [])
    (hw : ∀ s ∈ notes, wfNote s) :
    ((invertChord notes notes.length).map notePitchClass = notes.map notePitchClass ∧
     (invertChord notes notes.length).map noteOctave = notes.map (fun s => noteOctave s + 1)) ∧
    ∀ k ≤ notes.length,
      (invertChord (invertChord notes k) (notes.length - k)).map notePitchClass =
        notes.map notePitchClass := by
  refine ⟨⟨?_, ?_⟩, fun k hk => ?_⟩
  · rw [invertChord_full, List.map_map]
    exact List.map_congr_left (fun s hs => (raiseNote_wf s (hw s hs)).1)
  · rw [invertChord_full, List.map_map]
    exact List.map_congr_left (fun s hs => (raiseNote_wf s (hw s hs)).2)
  · rw [invertChord_comp notes k hk, List.map_map]
    exact List.map_congr_left (fun s hs => (raiseNote_wf s (hw s hs)).1)

/-- Witness for C6 at the C-major triad voiced at octave 4. -/
theorem invertChord_cycle_witness :
    ((invertChord ["C4", "E4", "G4"] (["C4", "E4", "G4"] : List String).length).map notePitchClass =
        (["C4", "E4", "G4"] : List String).map notePitchClass ∧
     (invertChord ["C4", "E4", "G4"] (["C4", "E4", "G4"] : List String).length).map noteOctave =
        (["C4", "E4", "G4"] : List String).map (fun s => noteOctave s + 1)) ∧
    ∀ k ≤ (["C4", "E4", "G4"] : List String).length,
      (invertChord (invertChord ["C4", "E4", "G4"] k)
          ((["C4", "E4", "G4"] : List String).length - k)).map notePitchClass =
        (["C4", "E4", "G4"] : List String).map notePitchClass :=
  invertChord_cycle ["C4", "E4", "G4"] (by decide) (by
    intro s hs
    fin_cases hs
    · exact ⟨"C", 4, by omega, by decide, by decide⟩
    · exact ⟨"E", 4, by omega, by decide, by decide⟩
    · exact ⟨"G", 4, by omega, by decide, by decide⟩)

/-- C10 as stated is false: `"C10"` has a two-digit octave, yet one
inversion pass maps it to `"C11"`, which *is* the correctly octave-raised
note (same pitch class, octave `10 + 1`). -/
theorem invertChord_twoDigit_counterexample :
    (trailingDigits "C10").length = 2 ∧
    invertChord ["C10"] 1 = ["C11"] ∧
    notePitchClass "C11" = notePitchClass "C10" ∧
    noteOctave "C11" = noteOctave "C10" + 1 := by decide

/-- C10 amended: `invertChord` determines a note's octave by parsing only
the final character.  Under the assembler's actual usage (digit-free
pitch-class spellings given the single-digit octave suffix `"4"`, triads
of 3 notes, inversion count at most 2) the parse is always correct and
every output pitch is its pitch class at octave 4 or 5.  For an input
note whose octave has two digits the name/octave split is wrong, but the
result fails to be the octave-raised note exactly when the octave's last
digit is 9 (the raise appends `"10"` after the leading digit); when the
last digit is at most 8 the output still coincides with the correctly
octave-raised note. -/
theorem invertChord_octaveParse_amended
    (pcs : List String) (k : Nat)
    (hpc : ∀ p ∈ pcs, noTrailingDigit p = true)
    (hlen : pcs.length = 3) (hk : k ≤ 2)
    (nm : String) (hnm : noTrailingDigit nm = true)
    (t u : Nat) (ht1 : 1 ≤ t) (ht9 : t ≤ 9) (hu9 : u ≤ 9) :
    (∀ s ∈ invertChord (pcs.map (fun n => n ++ "4")) k,
      ∃ p ∈ pcs, (s = p ++ "4" ∧ noteOctave s = 4 ∧ notePitchClass s = p) ∨
        (s = p ++ "5" ∧ noteOctave s = 5 ∧ notePitchClass s = p)) ∧
    ((⟨(nm ++ (⟨[Nat.digitChar t, Nat.digitChar u]⟩ : String)).data.dropLast⟩ : String) ≠
      notePitchClass (nm ++ ⟨[Nat.digitChar t, Nat.digitChar u]⟩)) ∧
    (u = 9 →
      noteOctave (raiseNote (nm ++ ⟨[Nat.digitChar t, Nat.digitChar u]⟩)) ≠
        noteOctave (nm ++ ⟨[Nat.digitChar t, Nat.digitChar u]⟩) + 1) ∧
    (u ≤ 8 →
      noteOctave (raiseNote (nm ++ ⟨[Nat.digitChar t, Nat.digitChar u]⟩)) =
        noteOctave (nm ++ ⟨[Nat.digitChar t, Nat.digitChar u]⟩) + 1) := by
  have hds : ∀ c ∈ [Nat.digitChar t, Nat.digitChar u], c.isDigit := by
    intro c hc
    simp only [List.mem_cons, List.mem_singleton, List.not_mem_nil, or_false] at hc
    rcases hc with rfl | rfl
    exacts [digitChar_isDigit ht9, digitChar_isDigit hu9]
  have t2 := trailing_append nm [Nat.digitChar t, Nat.digitChar u] hnm hds
  have hdata : (nm ++ (⟨[Nat.digitChar t, Nat.digitChar u]⟩ : String)).data =
      nm.data ++ [Nat.digitChar t, Nat.digitChar u] := String.data_append _ _
  have hassoc : nm.data ++ [Nat.digitChar t, Nat.digitChar u] =
      (nm.data ++ [Nat.digitChar t]) ++ [Nat.digitChar u] := by simp
  have hoct : noteOctave (nm ++ ⟨[Nat.digitChar t, Nat.digitChar u]⟩) = 10 * t + u := by
    unfold noteOctave
    rw [t2.1, digitsVal_two, digitChar_toNat ht9, digitChar_toNat hu9]
    ring
  have hraise : raiseNote (nm ++ ⟨[Nat.digitChar t, Nat.digitChar u]⟩) =
      nm ++ ⟨Nat.digitChar t :: (toString (u + 1)).data⟩ := by
    unfold raiseNote
    rw [show (nm ++ (⟨[Nat.digitChar t, Nat.digitChar u]⟩ : String)).data.getLast? =
        some (Nat.digitChar u) by rw [hdata, hassoc]; exact List.getLast?_concat _]
    simp only [digitChar_isDigit hu9, if_true]
    rw [show (nm ++ (⟨[Nat.digitChar t, Nat.digitChar u]⟩ : String)).data.dropLast =
        nm.data ++ [Nat.digitChar t] by rw [hdata, hassoc]; exact List.dropLast_concat]
    rw [digitChar_toNat hu9]
    apply str_ext
    rw [String.data_append, String.data_append]
    simp
  refine ⟨?_, ?_, ?_, ?_⟩
  · intro s hs
    have hk3 : k ≤ (pcs.map (fun n => n ++ "4")).length := by
      rw [List.length_map, hlen]; omega
    rw [invertChord_rot k _ hk3] at hs
    rcases List.mem_append.mp hs with hs | hs
    · rw [← List.map_drop] at hs
      obtain ⟨p, hp, rfl⟩ := List.mem_map.mp hs
      have hpp := hpc p (List.drop_subset _ _ hp)
      have od := octave_append_digit p hpp '4' rfl
      exact ⟨p, List.drop_subset _ _ hp, Or.inl ⟨rfl, od.1, od.2⟩⟩
    · rw [← List.map_take, List.map_map] at hs
      obtain ⟨p, hp, rfl⟩ := List.mem_map.mp hs
      have hpp := hpc p (List.take_subset _ _ hp)
      have od := octave_append_digit p hpp '5' rfl
      refine ⟨p, List.take_subset _ _ hp, Or.inr ⟨?_, ?_, ?_⟩⟩
      · simp [raiseNote_append4]
      · simp only [Function.comp_apply, raiseNote_append4]
        exact od.1
      · simp only [Function.comp_apply, raiseNote_append4]
        exact od.2
  · rw [show (nm ++ (⟨[Nat.digitChar t, Nat.digitChar u]⟩ : String)).data.dropLast =
        nm.data ++ [Nat.digitChar t] by rw [hdata, hassoc]; exact List.dropLast_concat, t2.2]
    intro heq
    have hlen2 := congrArg String.data heq
    simp only at hlen2
    simp at hlen2
  · intro hu
    subst hu
    rw [hraise, hoct]
    rw [show (toString (9 + 1)).data = ['1', '0'] by decide]
    have hall : ∀ c ∈ [Nat.digitChar t, '1', '0'], c.isDigit := by
      intro c hc
      simp only [List.mem_cons, List.mem_singleton, List.not_mem_nil, or_false] at hc
      rcases hc with rfl | rfl | rfl
      exacts [digitChar_isDigit ht9, rfl, rfl]
    have t3 := trailing_append nm [Nat.digitChar t, '1', '0'] hnm hall
    unfold noteOctave
    rw [t3.1, digitsVal_three, digitChar_toNat ht9]
    simp only [show ('1').toNat - 48 = 1 from rfl, show ('0').toNat - 48 = 0 from rfl]
    omega
  · intro hu8
    rw [hraise, hoct]
    rw [repr_single (show u + 1 ≤ 9 by omega)]
    have hall : ∀ c ∈ [Nat.digitChar t, Nat.digitChar (u + 1)], c.isDigit := by
      intro c hc
      simp only [List.mem_cons, List.mem_singleton, List.not_mem_nil, or_false] at hc
      rcases hc with rfl | rfl
      exacts [digitChar_isDigit ht9, digitChar_isDigit (by omega)]
    have t3 := trailing_append nm [Nat.digitChar t, Nat.digitChar (u + 1)] hnm hall
    unfold noteOctave
    rw [t3.1, digitsVal_two, digitChar_toNat ht9,
      digitChar_toNat (show u + 1 ≤ 9 by omega)]
    omega

/-- Witness for the amended C10: the C-major triad voiced at octave 4 with
2 inversions, and the two-digit octave 19 (last digit 9). -/
theorem invertChord_octaveParse_amended_witness :
    (∀ s ∈ invertChord ((["C", "E", "G"] : List String).map (fun n => n ++ "4")) 2,
      ∃ p ∈ (["C", "E", "G"] : List String),
        (s = p ++ "4" ∧ noteOctave s = 4 ∧ notePitchClass s = p) ∨
        (s = p ++ "5" ∧ noteOctave s = 5 ∧ notePitchClass s = p)) ∧
    ((⟨("C" ++ (⟨[Nat.digitChar 1, Nat.digitChar 9]⟩ : String)).data.dropLast⟩ : String) ≠
      notePitchClass ("C" ++ ⟨[Nat.digitChar 1, Nat.digitChar 9]⟩)) ∧
    ((9 : Nat) = 9 →
      noteOctave (raiseNote ("C" ++ ⟨[Nat.digitChar 1, Nat.digitChar 9]⟩)) ≠
        noteOctave ("C" ++ ⟨[Nat.digitChar 1, Nat.digitChar 9]⟩) + 1) ∧
    ((9 : Nat) ≤ 8 →
      noteOctave (raiseNote ("C" ++ ⟨[Nat.digitChar 1, Nat.digitChar 9]⟩)) =
        noteOctave ("C" ++ ⟨[Nat.digitChar 1, Nat.digitChar 9]⟩) + 1) :=
  invertChord_octaveParse_amended ["C", "E", "G"] 2
    (by intro p hp; fin_cases hp <;> decide) (by decide) (by decide)
    "C" (by decide) 1 9 (by decide) (by decide) (by decide)

/-! ## Melody claims -/

/-- Each bar contributes at most 8 melody events. -/
theorem flatten_map_range_len {β : Type} (n : Nat) (F : Nat → List β)
    (h : ∀ b, (F b).length ≤ 8) :
    (((List.range n).map F).flatten).length ≤ n * 8 := by
  induction n with
  | zero => simp
  | succ m ih =>
    rw [List.range_succ, List.map_append, List.flatten_append]
    simp only [List.length_append, List.map_cons, List.map_nil, List.flatten_cons,
      List.flatten_nil, List.append_nil]
    have := h m
    omega

/-- C3: for a scale root with a non-empty pentatonic scale of the type
matching the input scale type and in-range random draws,
`generateAfrobeatMelody` emits at most `numberOfBars * 8` events, and every
event's pitch is a pentatonic scale tone at octave 5 or 6, with duration
token `"8"`, `startTick = bar * 512 + slot * 32 + jitter` for a jitter in
`[-5, 4]`, and velocity in `[90, 119]`. -/
theorem generateAfrobeatMelody_spec (scaleRoot scaleType : String) (numberOfBars : Nat)
    (r : Nat → Nat → SlotRand)
    (hty : scaleType = "major" ∨ scaleType = "minor")
    (hne : pentatonicNotes scaleRoot scaleType ≠ [])
    (hr : ∀ bar beat, slotValid (pentatonicNotes scaleRoot scaleType).length (r bar beat)) :
    (generateAfrobeatMelody scaleRoot scaleType numberOfBars r).length ≤ numberOfBars * 8 ∧
    ∀ e ∈ generateAfrobeatMelody scaleRoot scaleType numberOfBars r,
      (∃ n ∈ pentatonicNotes scaleRoot scaleType, e.pitch = n ++ "5" ∨ e.pitch = n ++ "6") ∧
      e.duration = "8" ∧
      (∃ bar : Nat, bar < numberOfBars ∧ ∃ slot : Nat, slot < 8 ∧ ∃ j : Int, -5 ≤ j ∧ j ≤ 4 ∧
        e.startTick = (bar : Int) * 512 + (slot : Int) * 32 + j) ∧
      90 ≤ e.velocity ∧ e.velocity ≤ 119 := by
  have hemp : (pentatonicNotes scaleRoot scaleType).isEmpty = false := by
    simpa [List.isEmpty_iff] using hne
  constructor
  · simp only [generateAfrobeatMelody, hemp, Bool.false_eq_true, if_false]
    exact flatten_map_range_len numberOfBars _
      (fun b => le_trans (List.length_filterMap_le _ _) (by simp))
  · intro e he
    simp only [generateAfrobeatMelody, hemp, Bool.false_eq_true, if_false] at he
    obtain ⟨l, hl, he⟩ := List.mem_flatten.mp he
    obtain ⟨bar, hbar, rfl⟩ := List.mem_map.mp hl
    obtain ⟨beat, hbeat, hsome⟩ := List.mem_filterMap.mp he
    have hbar' : bar < numberOfBars := List.mem_range.mp hbar
    have hbeat' : beat < 8 := List.mem_range.mp hbeat
    obtain ⟨hidx, hoct2, hjit, hvel⟩ := hr bar beat
    by_cases hemit : (r bar beat).emit
    · rw [if_pos hemit] at hsome
      obtain rfl := Option.some.injEq _ _ |>.mp hsome
      refine ⟨⟨(pentatonicNotes scaleRoot scaleType).getD (r bar beat).noteIdx "",
          mem_getD _ _ _ hidx, ?_⟩, rfl, ?_, ?_, ?_⟩
      · interval_cases h : (r bar beat).octRaw
        · exact Or.inl rfl
        · exact Or.inr rfl
      · exact ⟨bar, hbar', beat, hbeat', ((r bar beat).jitRaw : Int) - 5,
          by omega, by omega, rfl⟩
      · simp
      · simp
        omega
    · rw [if_neg hemit] at hsome
      exact absurd hsome (by simp)

/-- Witness for C3 at C major, one bar, always-emitting draws. -/
theorem generateAfrobeatMelody_spec_witness :
    (generateAfrobeatMelody "C" "major" 1 r8).length ≤ 1 * 8 ∧
    ∀ e ∈ generateAfrobeatMelody "C" "major" 1 r8,
      (∃ n ∈ pentatonicNotes "C" "major", e.pitch = n ++ "5" ∨ e.pitch = n ++ "6") ∧
      e.duration = "8" ∧
      (∃ bar : Nat, bar < 1 ∧ ∃ slot : Nat, slot < 8 ∧ ∃ j : Int, -5 ≤ j ∧ j ≤ 4 ∧
        e.startTick = (bar : Int) * 512 + (slot : Int) * 32 + j) ∧
      90 ≤ e.velocity ∧ e.velocity ≤ 119 :=
  generateAfrobeatMelody_spec "C" "major" 1 r8 (Or.inl rfl) (by decide)
    (fun _ _ => (by decide : slotValid (pentatonicNotes "C" "major").length loudSlot))

/-- C8: a genuine random outcome (all draws in range) makes
`generateAfrobeatMelody` emit, for the first slot of bar 0, an event whose
`startTick` is negative — exactly `-5`, the lowest jitter — and the
generator performs no clamping of `startTick` to zero: the event is kept
as generated. -/
theorem generateAfrobeatMelody_negative_startTick :
    (∀ bar beat, slotValid (pentatonicNotes "C" "major").length (r8 bar beat)) ∧
    (generateAfrobeatMelody "C" "major" 4 r8).head? = some ⟨"C5", -5, "8", 90⟩ ∧
    ∃ e ∈ generateAfrobeatMelody "C" "major" 4 r8, e.startTick = -5 ∧ e.startTick < 0 := by
  exact ⟨fun _ _ => (by decide : slotValid (pentatonicNotes "C" "major").length loudSlot),
    by decide, ⟨"C5", -5, "8", 90⟩, by decide, by decide, by decide⟩

/-! ## Diatonic chord claims -/

/-- A list of length 3 is a literal triple. -/
theorem list_len3 {α : Type} (l : List α) (h : l.length = 3) : ∃ a b c, l = [a, b, c] := by
  rcases l with _ | ⟨a, _ | ⟨b, _ | ⟨c, _ | ⟨d, t⟩⟩⟩⟩
  · simp at h
  · simp at h
  · simp at h
  · exact ⟨a, b, c, rfl⟩
  · simp at h

/-- The last three characters of `s ++ q` are `q` when `q` has 3 characters. -/
theorem symbolQuality_append (s q : String) (h : q.data.length = 3) :
    symbolQuality (s ++ q) = q := by
  obtain ⟨a, b, c, hq⟩ := list_len3 q.data h
  unfold symbolQuality
  rw [String.data_append, hq, List.reverse_append,
    show ([a, b, c] : List Char).reverse = [c, b, a] from rfl,
    List.take_append_of_le_length (by simp),
    show ([c, b, a] : List Char).take 3 = [c, b, a] from rfl,
    show ([c, b, a] : List Char).reverse = [a, b, c] from rfl, ← hq]

/-- Quality suffix extraction for the `maj` symbols. -/
theorem symbolQuality_maj (s : String) : symbolQuality (s ++ "maj") = "maj" :=
  symbolQuality_append s "maj" rfl

/-- Quality suffix extraction for the `min` symbols. -/
theorem symbolQuality_min (s : String) : symbolQuality (s ++ "min") = "min" :=
  symbolQuality_append s "min" rfl

/-- Quality suffix extraction for the `dim` symbols. -/
theorem symbolQuality_dim (s : String) : symbolQuality (s ++ "dim") = "dim" :=
  symbolQuality_append s "dim" rfl

/-- C1: for every valid root pitch class the major pool has exactly 7
symbols with triad qualities `[maj,min,min,maj,maj,min,dim]` in degree
order, the minor pool has exactly 7 symbols with qualities
`[min,dim,maj,min,min,maj,maj]`, and the input `C major` yields exactly
the pool `[Cmaj, Dmin, Emin, Fmaj, Gmaj, Amin, Bdim]`. -/
theorem getDiatonicChords_spec (root : String) (h : validRoot root) :
    (getDiatonicChords root "major").length = 7 ∧
    (getDiatonicChords root "major").map symbolQuality =
      ["maj", "min", "min", "maj", "maj", "min", "dim"] ∧
    (getDiatonicChords root "minor").length = 7 ∧
    (getDiatonicChords root "minor").map symbolQuality =
      ["min", "dim", "maj", "min", "min", "maj", "maj"] ∧
    getDiatonicChords "C" "major" = ["Cmaj", "Dmin", "Emin", "Fmaj", "Gmaj", "Amin", "Bdim"] := by
  obtain ⟨pc, hpc⟩ := Option.isSome_iff_exists.mp h
  refine ⟨?_, ?_, ?_, ?_, by decide⟩
  · simp [getDiatonicChords, scaleGetNotes, hpc, scaleData, List.enum, List.enumFrom]
  · simp [getDiatonicChords, scaleGetNotes, hpc, scaleData, List.enum, List.enumFrom,
      chordGetChordSymbol, symbolQuality_maj, symbolQuality_min, symbolQuality_dim]
  · simp [getDiatonicChords, scaleGetNotes, hpc, scaleData, List.enum, List.enumFrom]
  · simp [getDiatonicChords, scaleGetNotes, hpc, scaleData, List.enum, List.enumFrom,
      chordGetChordSymbol, symbolQuality_maj, symbolQuality_min, symbolQuality_dim]

/-- Witness for C1 at the root `C`. -/
theorem getDiatonicChords_spec_witness :
    (getDiatonicChords "C" "major").length = 7 ∧
    (getDiatonicChords "C" "major").map symbolQuality =
      ["maj", "min", "min", "maj", "maj", "min", "dim"] ∧
    (getDiatonicChords "C" "minor").length = 7 ∧
    (getDiatonicChords "C" "minor").map symbolQuality =
      ["min", "dim", "maj", "min", "min", "maj", "maj"] ∧
    getDiatonicChords "C" "major" = ["Cmaj", "Dmin", "Emin", "Fmaj", "Gmaj", "Amin", "Bdim"] :=
  getDiatonicChords_spec "C" (by decide)

/-! ## Pipeline claims -/

/-- Inversion of the successful path of `handleGenerateMidi`: a produced
output is exactly the record assembled from the validated input and the
random draws. -/
theorem handleGenerateMidi_ok (input : String) (g : GenRand) (out : GenOut)
    (h : handleGenerateMidi input g = .ok out) :
    (jsToLower (inputType input) = "major" ∨ jsToLower (inputType input) = "minor") ∧
    out.progression = generateAfrobeatsProgression
      (getDiatonicChords (noteSimplify (inputRoot input)) (jsToLower (inputType input))) g.tmpl ∧
    out.events = MidiEvent.programChange 1 ::
      ((out.progression.enum.map (fun p =>
        MidiEvent.note
          (invertChord ((chordGetNotes p.2).map (fun n => n ++ "4")) (g.chord p.1).invRaw)
          "1" ((p.1 : Int) * 512 + (((g.chord p.1).offRaw : Int) - 10))
          ((g.chord p.1).velRaw + 80))) ++
      (generateAfrobeatMelody (noteSimplify (inputRoot input)) (jsToLower (inputType input))
        4 g.slot).map (fun m => MidiEvent.note [m.pitch] m.duration m.startTick m.velocity)) ∧
    out.filename = midiFilename out.progression := by
  simp only [handleGenerateMidi] at h
  split_ifs at h with h1 h2 h3
  injection h with h
  subst h
  exact ⟨h2, rfl, rfl, rfl⟩

/-- C5: if the input misses a root or type token, or its type token is not
`major`/`minor` after lowercasing, or the diatonic lookup yields an empty
pool, generation aborts with a user-facing error message: no output (and
hence no MIDI file) is produced and the displayed progression state is
left unchanged. -/
theorem handleGenerateMidi_aborts (input : String) (g : GenRand) (prev : List String)
    (h : inputRoot input = "" ∨ inputType input = "" ∨
      ¬ (jsToLower (inputType input) = "major" ∨ jsToLower (inputType input) = "minor") ∨
      getDiatonicChords (noteSimplify (inputRoot input)) (jsToLower (inputType input)) = []) :
    (∃ msg, handleGenerateMidi input g = .error msg) ∧
    displayedProgression input g prev = prev := by
  have herr : ∃ msg, handleGenerateMidi input g = .error msg := by
    simp only [handleGenerateMidi]
    split_ifs with h1 h2 h3
    any_goals exact ⟨_, rfl⟩
    exfalso
    rcases h with hx | hx | hx | hx
    · exact h1 (Or.inl hx)
    · exact h1 (Or.inr hx)
    · exact hx h2
    · exact h3 (by simp [hx])
  refine ⟨herr, ?_⟩
  obtain ⟨msg, hm⟩ := herr
  unfold displayedProgression
  rw [hm]

/-- Witness for C5 at the invalid input `x y` (type token not
major/minor). -/
theorem handleGenerateMidi_aborts_witness :
    (∃ msg, handleGenerateMidi "x y" genRand0 = .error msg) ∧
    displayedProgression "x y" genRand0 ["Cmaj"] = ["Cmaj"] :=
  handleGenerateMidi_aborts "x y" genRand0 ["Cmaj"]
    (Or.inr (Or.inr (Or.inl (by decide))))

/-- C4: on a successful run with in-range random draws, the track begins
with one program-change event selecting instrument 1, followed by one
multi-pitch note event per chord of the 4-chord progression in order —
pitches resolved at base octave 4 and inverted by a count in `[0, 2]`,
duration token `"1"`, velocity in `[80, 109]`, `startTick = i * 512 +
offset` with offset in `[-10, 9]` — followed by the melody events in
generation order. -/
theorem handleGenerateMidi_track (input : String) (g : GenRand) (out : GenOut)
    (ht : g.tmpl < 7) (hc : ∀ i, chordRandValid (g.chord i))
    (h : handleGenerateMidi input g = .ok out) :
    out.progression.length = 4 ∧
    (∃ root type, (type = "major" ∨ type = "minor") ∧
      out.events = MidiEvent.programChange 1 ::
        ((out.progression.enum.map (fun p =>
          MidiEvent.note
            (invertChord ((chordGetNotes p.2).map (fun n => n ++ "4")) (g.chord p.1).invRaw)
            "1" ((p.1 : Int) * 512 + (((g.chord p.1).offRaw : Int) - 10))
            ((g.chord p.1).velRaw + 80))) ++
        (generateAfrobeatMelody root type 4 g.slot).map
          (fun m => MidiEvent.note [m.pitch] m.duration m.startTick m.velocity))) ∧
    ∀ i, (g.chord i).invRaw ≤ 2 ∧
      80 ≤ (g.chord i).velRaw + 80 ∧ (g.chord i).velRaw + 80 ≤ 109 ∧
      (-10 : Int) ≤ ((g.chord i).offRaw : Int) - 10 ∧ ((g.chord i).offRaw : Int) - 10 ≤ 9 := by
  obtain ⟨hty, hprog, hevents, _⟩ := handleGenerateMidi_ok input g out h
  refine ⟨?_, ⟨noteSimplify (inputRoot input), jsToLower (inputType input), hty, hevents⟩, ?_⟩
  · rw [hprog]
    exact generateAfrobeatsProgression_length _ _ ht
  · intro i
    obtain ⟨h1, h2, h3⟩ := hc i
    refine ⟨by omega, by omega, by omega, by omega, by omega⟩

/-- Witness for C4 at the concrete run `handleGenerateMidi "C major" genRand0`. -/
theorem handleGenerateMidi_track_witness :
    out0.progression.length = 4 ∧
    (∃ root type, (type = "major" ∨ type = "minor") ∧
      out0.events = MidiEvent.programChange 1 ::
        ((out0.progression.enum.map (fun p =>
          MidiEvent.note
            (invertChord ((chordGetNotes p.2).map (fun n => n ++ "4")) (genRand0.chord p.1).invRaw)
            "1" ((p.1 : Int) * 512 + (((genRand0.chord p.1).offRaw : Int) - 10))
            ((genRand0.chord p.1).velRaw + 80))) ++
        (generateAfrobeatMelody root type 4 genRand0.slot).map
          (fun m => MidiEvent.note [m.pitch] m.duration m.startTick m.velocity))) ∧
    ∀ i, (genRand0.chord i).invRaw ≤ 2 ∧
      80 ≤ (genRand0.chord i).velRaw + 80 ∧ (genRand0.chord i).velRaw + 80 ≤ 109 ∧
      (-10 : Int) ≤ ((genRand0.chord i).offRaw : Int) - 10 ∧
      ((genRand0.chord i).offRaw : Int) - 10 ≤ 9 :=
  handleGenerateMidi_track "C major" genRand0 out0 (by decide)
    (fun _ => (by decide : chordRandValid ⟨0, 0, 0⟩)) (by rfl)

/-- C9: the output filename of every successful run is the progression's
chord symbols joined by underscores with every `#` replaced by `sharp`,
the filesystem-unsafe characters removed, and `.mid` appended; in
particular the progression `["C#maj", "Dmin"]` yields the filename
`Csharpmaj_Dmin.mid`. -/
theorem handleGenerateMidi_filename (input : String) (g : GenRand) (out : GenOut)
    (h : handleGenerateMidi input g = .ok out) :
    out.filename = stripUnsafe (replaceSharp (jsJoin "_" out.progression)) ++ ".mid" ∧
    midiFilename ["C#maj", "Dmin"] = "Csharpmaj_Dmin.mid" := by
  obtain ⟨_, _, _, hf⟩ := handleGenerateMidi_ok input g out h
  exact ⟨hf, by decide⟩

/-- Witness for C9 at the concrete run `handleGenerateMidi "C major" genRand0`. -/
theorem handleGenerateMidi_filename_witness :
    out0.filename = stripUnsafe (replaceSharp (jsJoin "_" out0.progression)) ++ ".mid" ∧
    midiFilename ["C#maj", "Dmin"] = "Csharpmaj_Dmin.mid" :=
  handleGenerateMidi_filename "C major" genRand0 out0 (by rfl)
